import Mathlib

/-!
Shallow embedding of `src/tools/accessibility.py` (Urban-Analytics).

Conventions of the embedding:
* Python floats are modelled as `ℚ`; IEEE `+inf` (the value igraph's
  `shortest_paths_dijkstra` returns for an unreachable target) is modelled by
  the extra constructor `Cost.inf`.
* A float that may be NaN (a tract weight read from a dataframe column) is an
  `Option ℚ`, `none` standing for NaN.
* The seeded numpy global generator is an explicit stream `u : ℕ → ℚ` of raw
  uniform draws in `[0,1]`; `np.random.seed(seed)` makes the stream a function
  of the seed alone, so two calls given the same stream model two calls made
  with the same seed.
* The unbounded `while True:` loop of `random_points_in_polygon` is given
  explicit fuel, returning `none` when fuel runs out.
* External collaborators (ox.get_nearest_nodes, igraph shortest paths) are
  abstract parameters: a snapped node list, a distance-row oracle
  `rowOf : ν → List Cost`, an edge-path oracle `epathOf : ν → List (List ι)`.
-/

/-- Travel cost as produced by the shortest-path oracle: a finite float or
IEEE `+inf` for an unreachable target. -/
inductive Cost where
  | fin : ℚ → Cost
  | inf : Cost
deriving DecidableEq, Repr

/-- `acc_comulative(d, t) = (d<=t)*1` on finite costs
(src/tools/accessibility.py line 26). -/
def acc_comulative (d t : ℚ) : ℚ := if d ≤ t then 1 else 0

/-- `acc_comulative` evaluated under IEEE float semantics where `d` may be
`+inf`: `inf <= t` is false, so the score is `0`. -/
def acc_comulativeC : Cost → ℚ → ℚ
  | .fin d, t => acc_comulative d t
  | .inf, _ => 0

/-- One iteration of the inner aggregation loop of `calc_tract_accessibility`
(line 210): `new = np.array(vals) * func(np.array(ds)); new.sum()` — the
elementwise product of the destination-weight vector with the decayed distance
row, summed. -/
def rowScore (vals : List ℚ) (f : Cost → ℚ) (ds : List Cost) : ℚ :=
  (List.zipWith (fun v d => v * f d) vals ds).sum

/-- The per-tract aggregation loop of `calc_tract_accessibility`
(lines 216-223): for each of `t` tracts consume `k` consecutive distance rows,
sum their `rowScore`s, divide by `k`, and append. -/
def accLoop (k : ℕ) (vals : List ℚ) (f : Cost → ℚ) : ℕ → List (List Cost) → List ℚ
  | 0, _ => []
  | t + 1, rows =>
    ((rows.take k).map (rowScore vals f)).sum / (k : ℚ) ::
      accLoop k vals f t (rows.drop k)

/-- Closed form of `accLoop`: tract `i` scores the rows `[i*k, i*k+k)`. -/
theorem accLoop_eq_map (k : ℕ) (vals : List ℚ) (f : Cost → ℚ) :
    ∀ (t : ℕ) (rows : List (List Cost)),
      accLoop k vals f t rows =
        (List.range t).map
          (fun i => (((rows.drop (i * k)).take k).map (rowScore vals f)).sum / (k : ℚ)) := by
  intro t
  induction t with
  | zero => intro rows; rfl
  | succ s ih =>
    intro rows
    rw [accLoop, List.range_succ_eq_map, List.map_cons, Nat.zero_mul, List.drop_zero,
      List.map_map, ih]
    congr 1
    apply List.map_congr_left
    intro i _
    have hdd : (rows.drop k).drop (i * k) = rows.drop (Nat.succ i * k) := by
      rw [List.drop_drop, Nat.succ_mul, Nat.add_comm]
    simp [Function.comp, hdd]

/-- The batch slicing of `calc_tract_accessibility` (lines 201-202):
`[l[x:x+c] for x in range(0, int((len(l)//c+1)*c)+1, c)]` — slices of width `c`
at offsets `0, c, 2c, ...`, `len(l)//c + 2` of them (trailing ones empty). -/
def pyChunks {α : Type} (c : ℕ) (l : List α) : List (List α) :=
  (List.range (l.length / c + 2)).map (fun i => (l.drop (i * c)).take c)

/-- Recursive reformulation of `pyChunks` used by the proofs: peel off a
prefix of width `c`, `m` times. -/
def chunksRec {α : Type} (c : ℕ) : ℕ → List α → List (List α)
  | 0, _ => []
  | m + 1, l => l.take c :: chunksRec c m (l.drop c)

/-- The distance/aggregation phase of `calc_tract_accessibility`
(lines 196-223): if there are at least `iter_cap*k` sources, slice the source
list into width-`iter_cap*k` sections and the tract list into width-`iter_cap`
sections, run the Dijkstra oracle `rowOf` and the aggregation loop per section
and concatenate; otherwise run once over everything. -/
def calc_scores {ν τ : Type} (iter_cap k : ℕ) (vals : List ℚ) (f : Cost → ℚ)
    (rowOf : ν → List Cost) (tracts : List τ) (ig_nodes : List ν) : List ℚ :=
  if iter_cap * k ≤ ig_nodes.length then
    (((pyChunks (iter_cap * k) ig_nodes).zip (pyChunks iter_cap tracts)).map
      (fun p => accLoop k vals f p.2.length (p.1.map rowOf))).flatten
  else
    accLoop k vals f tracts.length (ig_nodes.map rowOf)

theorem pyChunks_eq_chunksRec {α : Type} (c : ℕ) :
    ∀ (m : ℕ) (l : List α),
      (List.range m).map (fun i => (l.drop (i * c)).take c) = chunksRec c m l := by
  intro m
  induction m with
  | zero => intro l; rfl
  | succ s ih =>
    intro l
    rw [List.range_succ_eq_map, List.map_cons, Nat.zero_mul, List.drop_zero,
      List.map_map, chunksRec, ← ih]
    congr 1
    apply List.map_congr_left
    intro i _
    have hdd : (l.drop c).drop (i * c) = l.drop (Nat.succ i * c) := by
      rw [List.drop_drop, Nat.succ_mul, Nat.add_comm]
    simp [Function.comp, hdd]

theorem accLoop_append (k : ℕ) (vals : List ℚ) (f : Cost → ℚ) :
    ∀ (t1 : ℕ) (rows1 : List (List Cost)) (t2 : ℕ) (rows2 : List (List Cost)),
      rows1.length = k * t1 →
      accLoop k vals f (t1 + t2) (rows1 ++ rows2) =
        accLoop k vals f t1 rows1 ++ accLoop k vals f t2 rows2 := by
  intro t1
  induction t1 with
  | zero =>
    intro rows1 t2 rows2 h
    have : rows1 = [] := List.eq_nil_of_length_eq_zero (by simpa using h)
    simp [this, accLoop]
  | succ s ih =>
    intro rows1 t2 rows2 h
    have hk_le : k ≤ rows1.length := by
      rw [h, Nat.mul_succ]; exact Nat.le_add_left _ _
    have hadd : s + 1 + t2 = (s + t2) + 1 := by omega
    rw [hadd, accLoop, accLoop,
      List.take_append_of_le_length hk_le, List.drop_append_of_le_length hk_le]
    have hlen' : (rows1.drop k).length = k * s := by
      rw [List.length_drop, h, Nat.mul_succ]; omega
    rw [ih (rows1.drop k) t2 rows2 hlen']
    simp

theorem chunksRec_join {ν τ : Type} (k ic : ℕ) (vals : List ℚ) (f : Cost → ℚ)
    (rowOf : ν → List Cost) :
    ∀ (m : ℕ) (tracts : List τ) (ig : List ν),
      ig.length = k * tracts.length → tracts.length ≤ m * ic →
      (((chunksRec (ic * k) m ig).zip (chunksRec ic m tracts)).map
        (fun p => accLoop k vals f p.2.length (p.1.map rowOf))).flatten =
        accLoop k vals f tracts.length (ig.map rowOf) := by
  intro m
  induction m with
  | zero =>
    intro tracts ig hlen hcov
    have ht : tracts = [] := List.eq_nil_of_length_eq_zero (by omega)
    have hg : ig = [] := List.eq_nil_of_length_eq_zero (by rw [hlen, ht]; simp)
    simp [ht, hg, chunksRec, accLoop]
  | succ s ih =>
    intro tracts ig hlen hcov
    rw [chunksRec, chunksRec, List.zip_cons_cons, List.map_cons, List.flatten_cons]
    have hdroplen : (ig.drop (ic * k)).length = k * (tracts.drop ic).length := by
      rw [List.length_drop, List.length_drop, hlen, Nat.mul_sub, Nat.mul_comm ic k]
    have hcov' : (tracts.drop ic).length ≤ s * ic := by
      rw [List.length_drop]
      have : (s + 1) * ic = s * ic + ic := by rw [Nat.succ_mul]
      omega
    rw [ih (tracts.drop ic) (ig.drop (ic * k)) hdroplen hcov']
    have htakelen : ((ig.take (ic * k)).map rowOf).length = k * (tracts.take ic).length := by
      rw [List.length_map, List.length_take, List.length_take, hlen, Nat.mul_comm ic k]
      rcases Nat.le_total ic tracts.length with hle | hle
      · rw [Nat.min_eq_left (Nat.mul_le_mul_left k hle), Nat.min_eq_left hle]
      · rw [Nat.min_eq_right (Nat.mul_le_mul_left k hle), Nat.min_eq_right hle]
    have hsplit : tracts.length = (tracts.take ic).length + (tracts.drop ic).length := by
      rw [List.length_take, List.length_drop]; omega
    have hmap : ig.map rowOf = (ig.take (ic * k)).map rowOf ++ (ig.drop (ic * k)).map rowOf := by
      rw [← List.map_append, List.take_append_drop]
    rw [hsplit, hmap,
      accLoop_append k vals f ((tracts.take ic).length) ((ig.take (ic * k)).map rowOf)
        ((tracts.drop ic).length) ((ig.drop (ic * k)).map rowOf) htakelen]

theorem calc_scores_eq_unbatched {ν τ : Type} (iter_cap k : ℕ) (hk : 0 < k)
    (hic : 0 < iter_cap) (vals : List ℚ) (f : Cost → ℚ) (rowOf : ν → List Cost)
    (tracts : List τ) (ig_nodes : List ν)
    (hlen : ig_nodes.length = k * tracts.length) :
    calc_scores iter_cap k vals f rowOf tracts ig_nodes =
      accLoop k vals f tracts.length (ig_nodes.map rowOf) := by
  rw [calc_scores]
  by_cases hguard : iter_cap * k ≤ ig_nodes.length
  · rw [if_pos hguard]
    rw [pyChunks, pyChunks, pyChunks_eq_chunksRec, pyChunks_eq_chunksRec]
    have hm : ig_nodes.length / (iter_cap * k) = tracts.length / iter_cap := by
      rw [hlen, Nat.mul_comm iter_cap k, Nat.mul_div_mul_left _ _ hk]
    rw [hm]
    apply chunksRec_join k iter_cap vals f rowOf _ tracts ig_nodes hlen
    have h1 : tracts.length < (tracts.length / iter_cap + 1) * iter_cap :=
      (Nat.div_lt_iff_lt_mul hic).mp (Nat.lt_succ_self _)
    have h2 : (tracts.length / iter_cap + 1) * iter_cap ≤
        (tracts.length / iter_cap + 2) * iter_cap :=
      Nat.mul_le_mul_right _ (by omega)
    omega
  · rw [if_neg hguard]

/-- C4: with the same areas, destination weights, decay function, `k` and
Dijkstra oracle, two runs of the batched distance/aggregation phase with
different `iter_cap` values produce identical per-area score lists (exact
rational arithmetic models the floating-point tolerance). -/
theorem C4_batching_invariance {ν τ : Type} (ic1 ic2 k : ℕ) (hk : 0 < k)
    (h1 : 0 < ic1) (h2 : 0 < ic2) (vals : List ℚ) (f : Cost → ℚ)
    (rowOf : ν → List Cost) (tracts : List τ) (ig_nodes : List ν)
    (hlen : ig_nodes.length = k * tracts.length) :
    calc_scores ic1 k vals f rowOf tracts ig_nodes =
      calc_scores ic2 k vals f rowOf tracts ig_nodes := by
  rw [calc_scores_eq_unbatched ic1 k hk h1 vals f rowOf tracts ig_nodes hlen,
    calc_scores_eq_unbatched ic2 k hk h2 vals f rowOf tracts ig_nodes hlen]

/-- Witness for C4 at a concrete input: three tracts, `k = 1`, caps `1` and
`2` (the first run batches, the second does not). -/
theorem C4_batching_invariance_witness :
    (0 < 1 ∧ 0 < 1 ∧ 0 < 2 ∧
      ([0, 1, 2] : List ℕ).length = 1 * (([(), (), ()] : List Unit).length)) ∧
    calc_scores 1 1 [1] (fun d => acc_comulativeC d 500)
        (fun n => [Cost.fin (n : ℚ)]) [(), (), ()] [0, 1, 2] =
      calc_scores 2 1 [1] (fun d => acc_comulativeC d 500)
        (fun n => [Cost.fin (n : ℚ)]) [(), (), ()] [0, 1, 2] := by
  refine ⟨⟨Nat.one_pos, Nat.one_pos, Nat.two_pos, by decide⟩, ?_⟩
  exact C4_batching_invariance 1 2 1 Nat.one_pos Nat.one_pos Nat.two_pos
    [1] (fun d => acc_comulativeC d 500) (fun n => [Cost.fin (n : ℚ)])
    [(), (), ()] [0, 1, 2] (by decide)

/-- `np.nansum`: sum of a list of possibly-NaN floats, NaN entries skipped
(line 352, `tot = np.nansum(pops)`). -/
def nansum (l : List (Option ℚ)) : ℚ := (l.filterMap id).sum

/-- The per-sample weight construction of `calc_accessibility_load`
(lines 342-351): each tract contributes `k` copies of
`tract[tracts_weight_column] / k`; a NaN tract weight (`none`) stays NaN
under the division. -/
def build_pops (k : ℕ) (aws : List (Option ℚ)) : List (Option ℚ) :=
  aws.flatMap (fun aw => List.replicate k (aw.map (fun a => a / (k : ℚ))))

/-- First output of `_get_edges` (lines 227-235): per target vertex, the
`orig_name` tags of its shortest-path edge sequence, `[]` for an empty
sequence. -/
def get_edges_r {ι E : Type} (origName : ι → E) (seqs : List (List ι)) :
    List (List E) :=
  seqs.map (fun s => if s.length < 1 then [] else s.map origName)

/-- Second output of `_get_edges` (lines 227-237): per target vertex,
`sum(Gig.es[seq]['length'])` — note the attribute name `length` is hard-coded
there, independent of the `weight` parameter used for the Dijkstra call. -/
def get_edges_s {ι : Type} (eattr : String → ι → ℚ) (seqs : List (List ι)) :
    List ℚ :=
  seqs.map (fun s => if s.length < 1 then 0 else (s.map (eattr "length")).sum)

/-- The contribution vector of line 367:
`w = func(np.array(ts), **func_kws) * np.array([d for n, d in
G.nodes(data=pois_weight_column)]) * pop`, with `ts` from `_get_edges`. -/
def sample_w {ν ι : Type} (f : ℚ → ℚ) (eattr : String → ι → ℚ) (nodes : List ν)
    (poiw : ν → ℚ) (seqs : List (List ι)) (pop : ℚ) : List ℚ :=
  List.zipWith (fun t n => f t * poiw n * pop) (get_edges_s eattr seqs) nodes

/-- Follows the words of the specification, for refinement comparison with
`sample_w`: the decay function applied to the node's cumulative shortest-path
cost under the CHOSEN routing weight attribute `weight`, multiplied by the
node's POI weight and the sample's weight. -/
def claim_sample_w {ν ι : Type} (f : ℚ → ℚ) (eattr : String → ι → ℚ)
    (weight : String) (nodes : List ν) (poiw : ν → ℚ) (seqs : List (List ι))
    (pop : ℚ) : List ℚ :=
  List.zipWith (fun t n => f t * poiw n * pop)
    (seqs.map (fun s => (s.map (eattr weight)).sum)) nodes

/-- `_update_edges` for a single edge sequence and one weight (lines 243-246):
`for e in seq: G.edges[e][attr] += weight`. The `except` branch of lines
247-250 is dead in `calc_accessibility_load` because lines 319-320 initialise
the `load` attribute of every edge to 0 before any accumulation. -/
def addSeq {E : Type} [DecidableEq E] (loads : E → ℚ) (seq : List E) (w : ℚ) :
    E → ℚ :=
  seq.foldl (fun L e => Function.update L e (L e + w)) loads

/-- `_update_edges` (lines 239-251) over the zipped list of edge sequences and
weights. -/
def update_edges {E : Type} [DecidableEq E] (loads : E → ℚ)
    (pairs : List (List E × ℚ)) : E → ℚ :=
  pairs.foldl (fun L p => addSeq L p.1 p.2) loads

/-- One iteration of the accumulation loop of `calc_accessibility_load`
(lines 362-370): skip the sample if its weight `pop` is NaN (`none`) or zero;
otherwise get the shortest-path edge sequences from the oracle `epathOf`, run
`_get_edges`, build the contribution vector, divide it by `tot` when `norm`,
and add it along the paths. -/
def load_step {ν ι E : Type} [DecidableEq E] (f : ℚ → ℚ) (nodes : List ν)
    (poiw : ν → ℚ) (epathOf : ν → List (List ι)) (origName : ι → E)
    (eattr : String → ι → ℚ) (norm : Bool) (tot : ℚ) (loads : E → ℚ)
    (sp : ν × Option ℚ) : E → ℚ :=
  match sp.2 with
  | none => loads
  | some pop =>
    if pop = 0 then loads
    else
      let seqs := epathOf sp.1
      let r := get_edges_r origName seqs
      let w := sample_w f eattr nodes poiw seqs pop
      let w := if norm then w.map (fun x => x / tot) else w
      update_edges loads (r.zip w)

/-- The accumulation phase of `calc_accessibility_load` (lines 352-370),
starting from the loads `loads0`: `tot` is `np.nansum(pops)` over the whole
sample list, and every sample is processed by `load_step`. -/
def load_fold {ν ι E : Type} [DecidableEq E] (f : ℚ → ℚ) (nodes : List ν)
    (poiw : ν → ℚ) (epathOf : ν → List (List ι)) (origName : ι → E)
    (eattr : String → ι → ℚ) (srcs : List (ν × Option ℚ)) (norm : Bool)
    (loads0 : E → ℚ) : E → ℚ :=
  srcs.foldl
    (load_step f nodes poiw epathOf origName eattr norm
      (nansum (srcs.map Prod.snd)))
    loads0

/-- `calc_accessibility_load` as seen at the `load` attribute: lines 319-320
initialise every edge's load to 0, then the accumulation loop runs. -/
def calc_accessibility_load_model {ν ι E : Type} [DecidableEq E] (f : ℚ → ℚ)
    (nodes : List ν) (poiw : ν → ℚ) (epathOf : ν → List (List ι))
    (origName : ι → E) (eattr : String → ι → ℚ) (srcs : List (ν × Option ℚ))
    (norm : Bool) : E → ℚ :=
  load_fold f nodes poiw epathOf origName eattr srcs norm (fun _ => 0)

/-- C2: each area's returned score is the average over its `k` consecutive
distance rows of the decayed, destination-weight-multiplied row sums; and an
area whose single sample coincides with a single POI node, under the hard
cutoff with `t = 0`, scores exactly that POI's weight. -/
theorem C2_area_score_average :
    (∀ (k : ℕ) (vals : List ℚ) (f : Cost → ℚ) (t : ℕ) (rows : List (List Cost)),
      accLoop k vals f t rows =
        (List.range t).map
          (fun i => (((rows.drop (i * k)).take k).map (rowScore vals f)).sum / (k : ℚ)))
    ∧ (∀ w : ℚ,
        accLoop 1 [w] (fun d => acc_comulativeC d 0) 1 [[Cost.fin 0]] = [w]) := by
  constructor
  · intro k vals f t rows
    exact accLoop_eq_map k vals f t rows
  · intro w
    simp [accLoop, rowScore, acc_comulativeC, acc_comulative]

theorem nansum_skip (l1 l2 : List (Option ℚ)) (w0 : Option ℚ)
    (hw : w0 = none ∨ w0 = some 0) :
    nansum (l1 ++ w0 :: l2) = nansum (l1 ++ l2) := by
  rcases hw with h | h <;> subst h <;>
    simp [nansum, List.filterMap_append]

/-- C10: a sample whose per-area weight is NaN (`none`) or zero is skipped by
line 363 before any shortest-path computation: removing it from the sample
list leaves the accumulated loads unchanged (it also leaves `np.nansum(pops)`
unchanged), and no error is raised. -/
theorem C10_skipped_sample {ν ι E : Type} [DecidableEq E] (f : ℚ → ℚ)
    (nodes : List ν) (poiw : ν → ℚ) (epathOf : ν → List (List ι))
    (origName : ι → E) (eattr : String → ι → ℚ) (norm : Bool) (loads0 : E → ℚ)
    (pre post : List (ν × Option ℚ)) (v : ν) (w0 : Option ℚ)
    (hw : w0 = none ∨ w0 = some 0) :
    load_fold f nodes poiw epathOf origName eattr (pre ++ (v, w0) :: post) norm
        loads0 =
      load_fold f nodes poiw epathOf origName eattr (pre ++ post) norm loads0 := by
  have htot : nansum (((pre ++ (v, w0) :: post).map Prod.snd)) =
      nansum ((pre ++ post).map Prod.snd) := by
    rw [List.map_append, List.map_cons, List.map_append]
    exact nansum_skip _ _ _ hw
  rw [load_fold, load_fold, htot, List.foldl_append, List.foldl_append,
    List.foldl_cons]
  congr 1
  rcases hw with h | h <;> subst h <;> simp [load_step]

/-- Witness for C10 at a concrete input: one NaN-weighted sample on a
one-node graph model. -/
theorem C10_skipped_sample_witness :
    ((none : Option ℚ) = none ∨ (none : Option ℚ) = some 0) ∧
      load_fold (fun d => d) ([] : List ℕ) (fun _ => 0)
          (fun _ => ([] : List (List ℕ))) (fun i : ℕ => i) (fun _ _ => 0)
          ([] ++ ((0 : ℕ), (none : Option ℚ)) :: []) false (fun _ => 0) =
        load_fold (fun d => d) ([] : List ℕ) (fun _ => 0)
          (fun _ => ([] : List (List ℕ))) (fun i : ℕ => i) (fun _ _ => 0)
          ([] ++ []) false (fun _ => 0) :=
  ⟨Or.inl rfl,
    C10_skipped_sample (fun d => d) [] (fun _ => 0) (fun _ => []) (fun i => i)
      (fun _ _ => 0) false (fun _ => 0) [] [] 0 none (Or.inl rfl)⟩

/-- C6 counterexample: a one-edge graph whose `length` attribute is 1000 but
whose chosen routing attribute `time` is 1, hard cutoff at 500, one POI node
of weight 1, sample weight 1. The code's contribution vector (line 367, via
`_get_edges`, which reads the hard-coded `length` attribute) is `[0]`, while
the claim's formula — decay of the cumulative cost under the chosen routing
weight attribute — gives `[1]`. -/
theorem C6_counterexample_weight_attr :
    sample_w (fun d => acc_comulative d 500)
        (fun a _ => if a = "length" then (1000 : ℚ) else 1) [(1 : ℕ)]
        (fun _ => 1) [[(0 : ℕ)]] 1 ≠
      claim_sample_w (fun d => acc_comulative d 500)
        (fun a _ => if a = "length" then (1000 : ℚ) else 1) "time" [(1 : ℕ)]
        (fun _ => 1) [[(0 : ℕ)]] 1 := by
  have h1 : sample_w (fun d => acc_comulative d 500)
      (fun a _ => if a = "length" then (1000 : ℚ) else 1) [(1 : ℕ)]
      (fun _ => 1) [[(0 : ℕ)]] 1 = [0] := by
    simp [sample_w, get_edges_s, acc_comulative]
    norm_num
  have h2 : claim_sample_w (fun d => acc_comulative d 500)
      (fun a _ => if a = "length" then (1000 : ℚ) else 1) "time" [(1 : ℕ)]
      (fun _ => 1) [[(0 : ℕ)]] 1 = [1] := by
    simp [claim_sample_w, acc_comulative]
  rw [h1, h2]
  simp

/-- C6 amended: the contribution vector of line 367 equals the claim's
formula with the cumulative cost taken under the `length` edge attribute
(hard-coded at line 236) — so the claim as stated holds exactly when the
chosen routing weight attribute is `length`; and every per-sample weight
produced by lines 342-351 is some area's weight divided by `k` (`1/k` per
sample when the default weight 1 is used, NaN staying NaN). -/
theorem C6_amended_contribution :
    (∀ {ν ι : Type} (f : ℚ → ℚ) (eattr : String → ι → ℚ) (nodes : List ν)
        (poiw : ν → ℚ) (seqs : List (List ι)) (pop : ℚ),
        sample_w f eattr nodes poiw seqs pop =
          claim_sample_w f eattr "length" nodes poiw seqs pop)
    ∧ (∀ (k : ℕ) (aws : List (Option ℚ)) (p : Option ℚ), p ∈ build_pops k aws →
        ∃ aw ∈ aws, p = aw.map (fun a => a / (k : ℚ))) := by
  constructor
  · intro ν ι f eattr nodes poiw seqs pop
    rw [sample_w, claim_sample_w, get_edges_s]
    congr 1
    apply List.map_congr_left
    intro s _
    by_cases h : s.length < 1
    · have : s = [] := List.eq_nil_of_length_eq_zero (by omega)
      simp [h, this]
    · simp [h]
  · intro k aws p hp
    rw [build_pops, List.mem_flatMap] at hp
    obtain ⟨aw, haw, hrep⟩ := hp
    exact ⟨aw, haw, List.eq_of_mem_replicate hrep⟩

/-- Witness for C6 amended at concrete inputs. -/
theorem C6_amended_contribution_witness :
    (sample_w (fun d => d) (fun _ _ => (2 : ℚ)) [(0 : ℕ)] (fun _ => 1)
        [[(0 : ℕ)]] 1 =
      claim_sample_w (fun d => d) (fun _ _ => (2 : ℚ)) "length" [(0 : ℕ)]
        (fun _ => 1) [[(0 : ℕ)]] 1) ∧
      ((none : Option ℚ) ∈ build_pops 1 [none] ∧
        ∃ aw ∈ [(none : Option ℚ)], none = aw.map (fun a => a / ((1 : ℕ) : ℚ))) :=
  ⟨C6_amended_contribution.1 (fun d => d) (fun _ _ => (2 : ℚ)) [(0 : ℕ)]
      (fun _ => 1) [[(0 : ℕ)]] 1,
    by decide,
    C6_amended_contribution.2 1 [none] none (by decide)⟩

/-- C9 counterexample: in `calc_accessibility_load` an unreachable target
vertex gets an empty edge sequence, which `_get_edges` turns into cumulative
cost `0` (lines 231-233) — not infinity — so with the hard cutoff the decayed
score of the unreachable node is its POI weight `1`, not `0` as the claim
states. (It still adds no load, because the contribution lands on an empty
edge list.) -/
theorem C9_counterexample_unreachable_cost_zero :
    sample_w (fun d => acc_comulative d 500) (fun _ _ => (1 : ℚ)) [(1 : ℕ)]
        (fun _ => 1) [([] : List ℕ)] 1 = [1] ∧ (1 : ℚ) ≠ 0 := by
  constructor
  · simp [sample_w, get_edges_s, acc_comulative]
  · norm_num

/-- C9 amended: in `calc_tract_accessibility` an unreachable target appears
as an infinite distance and the hard-cutoff decay maps it to 0, so it adds
nothing to the row score; in `calc_accessibility_load` an unreachable node
has an empty edge sequence and `_update_edges` leaves every load unchanged
for it. Neither operation raises an error (both models are total). -/
theorem C9_amended_unreachable :
    (∀ (vals : List ℚ) (ds : List Cost) (v t : ℚ), vals.length = ds.length →
        rowScore (vals ++ [v]) (fun d => acc_comulativeC d t) (ds ++ [Cost.inf]) =
          rowScore vals (fun d => acc_comulativeC d t) ds)
    ∧ (∀ {E : Type} [DecidableEq E] (loads : E → ℚ)
        (p1 p2 : List (List E × ℚ)) (w : ℚ),
        update_edges loads (p1 ++ ([], w) :: p2) = update_edges loads (p1 ++ p2)) := by
  constructor
  · intro vals ds v t h
    rw [rowScore, rowScore, List.zipWith_append _ _ _ _ _ h, List.sum_append]
    simp [acc_comulativeC]
  · intro E _ loads p1 p2 w
    rw [update_edges, update_edges, List.foldl_append, List.foldl_append,
      List.foldl_cons]
    rfl

/-- Witness for C9 amended at concrete inputs. -/
theorem C9_amended_unreachable_witness :
    (([(7 : ℚ)]).length = ([Cost.fin 3]).length ∧
      rowScore ([(7 : ℚ)] ++ [(3 : ℚ)]) (fun d => acc_comulativeC d 500)
          ([Cost.fin 3] ++ [Cost.inf]) =
        rowScore [(7 : ℚ)] (fun d => acc_comulativeC d 500) [Cost.fin 3]) ∧
      update_edges (fun _ : ℕ => (0 : ℚ)) ([] ++ ([], 5) :: []) =
        update_edges (fun _ : ℕ => (0 : ℚ)) ([] ++ []) :=
  ⟨⟨rfl, C9_amended_unreachable.1 [7] [Cost.fin 3] 3 500 rfl⟩,
    C9_amended_unreachable.2 (fun _ : ℕ => (0 : ℚ)) [] [] 5⟩

/-- Total load over a list of edges: the quantity "load summed over all edges
of the returned graph". -/
def totalLoad {E : Type} (edges : List E) (loads : E → ℚ) : ℚ :=
  (edges.map loads).sum

/-- The total contribution one sample adds across all edges: the sum over
destination vertices of its contribution value times the number of edges on
its shortest path; zero for a skipped sample. -/
def sample_added {ν ι E : Type} (f : ℚ → ℚ) (nodes : List ν) (poiw : ν → ℚ)
    (epathOf : ν → List (List ι)) (origName : ι → E) (eattr : String → ι → ℚ)
    (norm : Bool) (tot : ℚ) (sp : ν × Option ℚ) : ℚ :=
  match sp.2 with
  | none => 0
  | some pop =>
    if pop = 0 then 0
    else
      let seqs := epathOf sp.1
      let r := get_edges_r origName seqs
      let w := sample_w f eattr nodes poiw seqs pop
      let w := if norm then w.map (fun x => x / tot) else w
      ((r.zip w).map (fun p => p.2 * (p.1.length : ℚ))).sum

theorem totalLoad_update {E : Type} [DecidableEq E] :
    ∀ (edges : List E), edges.Nodup → ∀ (L : E → ℚ) (e0 : E), e0 ∈ edges →
      ∀ (w : ℚ),
      totalLoad edges (Function.update L e0 (L e0 + w)) = totalLoad edges L + w := by
  intro edges
  induction edges with
  | nil => intro _ L e0 he; simp at he
  | cons a rest ih =>
    intro hnd L e0 he w
    rw [List.nodup_cons] at hnd
    rw [totalLoad, totalLoad, List.map_cons, List.map_cons, List.sum_cons,
      List.sum_cons]
    rcases List.mem_cons.mp he with h | h
    · subst h
      have hrest : rest.map (Function.update L e0 (L e0 + w)) = rest.map L := by
        apply List.map_congr_left
        intro x hx
        have hne : x ≠ e0 := fun hxe => hnd.1 (hxe ▸ hx)
        exact Function.update_noteq hne _ _
      rw [Function.update_same, hrest]
      ring
    · have hne : a ≠ e0 := fun hae => hnd.1 (hae ▸ h)
      rw [Function.update_noteq hne _ _]
      have := ih hnd.2 L e0 h w
      rw [totalLoad, totalLoad] at this
      rw [this]
      ring

theorem totalLoad_addSeq {E : Type} [DecidableEq E] (edges : List E)
    (hnd : edges.Nodup) :
    ∀ (seq : List E) (L : E → ℚ) (w : ℚ), (∀ e ∈ seq, e ∈ edges) →
      totalLoad edges (addSeq L seq w) = totalLoad edges L + w * seq.length := by
  intro seq
  induction seq with
  | nil => intro L w _; simp [addSeq]
  | cons a s ih =>
    intro L w h
    rw [show addSeq L (a :: s) w = addSeq (Function.update L a (L a + w)) s w from rfl,
      ih _ w (fun e he => h e (List.mem_cons_of_mem a he)),
      totalLoad_update edges hnd L a (h a (List.mem_cons_self a s)) w,
      List.length_cons]
    push_cast
    ring

theorem totalLoad_update_edges {E : Type} [DecidableEq E] (edges : List E)
    (hnd : edges.Nodup) :
    ∀ (pairs : List (List E × ℚ)) (L : E → ℚ),
      (∀ p ∈ pairs, ∀ e ∈ p.1, e ∈ edges) →
      totalLoad edges (update_edges L pairs) =
        totalLoad edges L + (pairs.map (fun p => p.2 * (p.1.length : ℚ))).sum := by
  intro pairs
  induction pairs with
  | nil => intro L _; simp [update_edges]
  | cons p ps ih =>
    intro L h
    rw [show update_edges L (p :: ps) = update_edges (addSeq L p.1 p.2) ps from rfl,
      ih _ (fun q hq => h q (List.mem_cons_of_mem p hq)),
      totalLoad_addSeq edges hnd p.1 L p.2 (h p (List.mem_cons_self p ps)),
      List.map_cons, List.sum_cons]
    ring

theorem totalLoad_load_step {ν ι E : Type} [DecidableEq E] (f : ℚ → ℚ)
    (nodes : List ν) (poiw : ν → ℚ) (epathOf : ν → List (List ι))
    (origName : ι → E) (eattr : String → ι → ℚ) (norm : Bool) (tot : ℚ)
    (edges : List E) (hnd : edges.Nodup) (L : E → ℚ) (sp : ν × Option ℚ)
    (hmem : ∀ seq ∈ epathOf sp.1, ∀ i ∈ seq, origName i ∈ edges) :
    totalLoad edges (load_step f nodes poiw epathOf origName eattr norm tot L sp) =
      totalLoad edges L +
        sample_added f nodes poiw epathOf origName eattr norm tot sp := by
  obtain ⟨v, pop?⟩ := sp
  match pop? with
  | none => simp [load_step, sample_added]
  | some pop =>
    by_cases hp : pop = 0
    · simp [load_step, sample_added, hp]
    · rw [show load_step f nodes poiw epathOf origName eattr norm tot L (v, some pop) =
          update_edges L
            ((get_edges_r origName (epathOf v)).zip
              (if norm then
                (sample_w f eattr nodes poiw (epathOf v) pop).map (fun x => x / tot)
              else sample_w f eattr nodes poiw (epathOf v) pop)) from by
            simp [load_step, hp],
        show sample_added f nodes poiw epathOf origName eattr norm tot (v, some pop) =
          (((get_edges_r origName (epathOf v)).zip
              (if norm then
                (sample_w f eattr nodes poiw (epathOf v) pop).map (fun x => x / tot)
              else sample_w f eattr nodes poiw (epathOf v) pop)).map
            (fun p => p.2 * (p.1.length : ℚ))).sum from by
            simp [sample_added, hp]]
      apply totalLoad_update_edges edges hnd
      intro p hp' e he
      have h1 : p.1 ∈ get_edges_r origName (epathOf v) := (List.of_mem_zip hp').1
      rw [get_edges_r, List.mem_map] at h1
      obtain ⟨s, hs, hps⟩ := h1
      by_cases hlen : s.length < 1
      · rw [if_pos hlen] at hps
        rw [← hps] at he
        simp at he
      · rw [if_neg hlen] at hps
        rw [← hps, List.mem_map] at he
        obtain ⟨i, hi, hie⟩ := he
        exact hie ▸ hmem s hs i hi

theorem totalLoad_load_fold {ν ι E : Type} [DecidableEq E] (f : ℚ → ℚ)
    (nodes : List ν) (poiw : ν → ℚ) (epathOf : ν → List (List ι))
    (origName : ι → E) (eattr : String → ι → ℚ) (norm : Bool) (tot : ℚ)
    (edges : List E) (hnd : edges.Nodup) :
    ∀ (srcs : List (ν × Option ℚ)) (L : E → ℚ),
      (∀ sp ∈ srcs, ∀ seq ∈ epathOf sp.1, ∀ i ∈ seq, origName i ∈ edges) →
      totalLoad edges
          (srcs.foldl (load_step f nodes poiw epathOf origName eattr norm tot) L) =
        totalLoad edges L +
          (srcs.map (sample_added f nodes poiw epathOf origName eattr norm tot)).sum := by
  intro srcs
  induction srcs with
  | nil => intro L _; simp
  | cons sp ss ih =>
    intro L h
    rw [List.foldl_cons,
      ih _ (fun q hq => h q (List.mem_cons_of_mem sp hq)),
      totalLoad_load_step f nodes poiw epathOf origName eattr norm tot edges hnd L sp
        (h sp (List.mem_cons_self sp ss)),
      List.map_cons, List.sum_cons]
    ring

/-- C7: the total load summed over all edges of the returned graph equals the
sum over all source samples of the sum over all destination vertices of that
pair's contribution value times the number of edges on its shortest path —
the accumulation step neither creates nor destroys load (exact rational
arithmetic models "up to rounding"). -/
theorem C7_load_conservation {ν ι E : Type} [DecidableEq E] (f : ℚ → ℚ)
    (nodes : List ν) (poiw : ν → ℚ) (epathOf : ν → List (List ι))
    (origName : ι → E) (eattr : String → ι → ℚ) (srcs : List (ν × Option ℚ))
    (norm : Bool) (edges : List E) (hnd : edges.Nodup)
    (hmem : ∀ v : ν, ∀ seq ∈ epathOf v, ∀ i ∈ seq, origName i ∈ edges) :
    totalLoad edges
        (calc_accessibility_load_model f nodes poiw epathOf origName eattr srcs norm) =
      (srcs.map
        (sample_added f nodes poiw epathOf origName eattr norm
          (nansum (srcs.map Prod.snd)))).sum := by
  rw [calc_accessibility_load_model, load_fold,
    totalLoad_load_fold f nodes poiw epathOf origName eattr norm
      (nansum (srcs.map Prod.snd)) edges hnd srcs (fun _ => 0)
      (fun sp _ => hmem sp.1)]
  have hzero : totalLoad edges (fun _ => (0 : ℚ)) = 0 := by
    simp [totalLoad]
  rw [hzero, zero_add]

/-- Witness for C7 at a concrete input: one edge, one POI node, one sample of
weight 1 whose path to that node crosses the edge. -/
theorem C7_load_conservation_witness :
    (([(0 : ℕ)] : List ℕ).Nodup ∧
      (∀ v : ℕ, ∀ seq ∈ (fun _ : ℕ => [[(0 : ℕ)]]) v, ∀ i ∈ seq,
        (fun i : ℕ => i) i ∈ ([(0 : ℕ)] : List ℕ))) ∧
      totalLoad [(0 : ℕ)]
          (calc_accessibility_load_model (fun d => d) [(1 : ℕ)] (fun _ => 1)
            (fun _ : ℕ => [[(0 : ℕ)]]) (fun i : ℕ => i) (fun _ _ => 1)
            [((5 : ℕ), some 1)] false) =
        ([((5 : ℕ), some (1 : ℚ))].map
          (sample_added (fun d => d) [(1 : ℕ)] (fun _ => 1)
            (fun _ : ℕ => [[(0 : ℕ)]]) (fun i : ℕ => i) (fun _ _ => 1) false
            (nansum ([((5 : ℕ), some (1 : ℚ))].map Prod.snd)))).sum :=
  ⟨⟨by decide, by intro v seq hs i hi; simp at hs; subst hs; simp at hi; simp [hi]⟩,
    C7_load_conservation (fun d => d) [(1 : ℕ)] (fun _ => 1)
      (fun _ : ℕ => [[(0 : ℕ)]]) (fun i : ℕ => i) (fun _ _ => 1)
      [((5 : ℕ), some 1)] false [(0 : ℕ)] (by decide)
      (by intro v seq hs i hi; simp at hs; subst hs; simp at hi; simp [hi])⟩

theorem addSeq_div {E : Type} [DecidableEq E] (c : ℚ) :
    ∀ (seq : List E) (w : ℚ) (Lt Lf : E → ℚ), (∀ e, Lt e = Lf e / c) →
      ∀ e, addSeq Lt seq (w / c) e = addSeq Lf seq w e / c := by
  intro seq
  induction seq with
  | nil => intro w Lt Lf h e; exact h e
  | cons a s ih =>
    intro w Lt Lf h e
    rw [show addSeq Lt (a :: s) (w / c) =
        addSeq (Function.update Lt a (Lt a + w / c)) s (w / c) from rfl,
      show addSeq Lf (a :: s) w =
        addSeq (Function.update Lf a (Lf a + w)) s w from rfl]
    apply ih
    intro x
    by_cases hx : x = a
    · subst hx
      rw [Function.update_same, Function.update_same, h x, div_add_div_same]
    · rw [Function.update_noteq hx, Function.update_noteq hx]
      exact h x

theorem update_edges_div {E : Type} [DecidableEq E] (c : ℚ) :
    ∀ (pairs : List (List E × ℚ)) (Lt Lf : E → ℚ), (∀ e, Lt e = Lf e / c) →
      ∀ e, update_edges Lt (pairs.map (fun p => (p.1, p.2 / c))) e =
        update_edges Lf pairs e / c := by
  intro pairs
  induction pairs with
  | nil => intro Lt Lf h e; exact h e
  | cons p ps ih =>
    intro Lt Lf h e
    rw [List.map_cons,
      show update_edges Lt ((p.1, p.2 / c) :: ps.map (fun q => (q.1, q.2 / c))) =
        update_edges (addSeq Lt p.1 (p.2 / c)) (ps.map (fun q => (q.1, q.2 / c))) from rfl,
      show update_edges Lf (p :: ps) = update_edges (addSeq Lf p.1 p.2) ps from rfl]
    exact ih _ _ (addSeq_div c p.1 p.2 Lt Lf h) e

theorem load_step_div {ν ι E : Type} [DecidableEq E] (f : ℚ → ℚ)
    (nodes : List ν) (poiw : ν → ℚ) (epathOf : ν → List (List ι))
    (origName : ι → E) (eattr : String → ι → ℚ) (tot : ℚ)
    (Lt Lf : E → ℚ) (h : ∀ e, Lt e = Lf e / tot) (sp : ν × Option ℚ) :
    ∀ e, load_step f nodes poiw epathOf origName eattr true tot Lt sp e =
      load_step f nodes poiw epathOf origName eattr false tot Lf sp e / tot := by
  intro e
  obtain ⟨v, pop?⟩ := sp
  match pop? with
  | none => exact h e
  | some pop =>
    by_cases hp : pop = 0
    · simp only [load_step, hp, if_pos rfl]
      exact h e
    · rw [show load_step f nodes poiw epathOf origName eattr true tot Lt (v, some pop) =
          update_edges Lt
            ((get_edges_r origName (epathOf v)).zip
              ((sample_w f eattr nodes poiw (epathOf v) pop).map (fun x => x / tot)))
          from by simp [load_step, hp],
        show load_step f nodes poiw epathOf origName eattr false tot Lf (v, some pop) =
          update_edges Lf
            ((get_edges_r origName (epathOf v)).zip
              (sample_w f eattr nodes poiw (epathOf v) pop))
          from by simp [load_step, hp]]
      have hzip : (get_edges_r origName (epathOf v)).zip
          ((sample_w f eattr nodes poiw (epathOf v) pop).map (fun x => x / tot)) =
          ((get_edges_r origName (epathOf v)).zip
            (sample_w f eattr nodes poiw (epathOf v) pop)).map
            (fun p => (p.1, p.2 / tot)) := by
        rw [List.zip_map_right]
        apply List.map_congr_left
        intro p _
        cases p
        rfl
      rw [hzip]
      exact update_edges_div tot _ Lt Lf h e

/-- C8: edge by edge, the loads produced with `norm=True` are exactly the
loads produced with `norm=False` divided by `tot = np.nansum(pops)`, the
total sample-weight mass (NaN weights skipped by `nansum` exactly as their
samples are skipped by the loop). -/
theorem C8_norm_divides_by_total {ν ι E : Type} [DecidableEq E] (f : ℚ → ℚ)
    (nodes : List ν) (poiw : ν → ℚ) (epathOf : ν → List (List ι))
    (origName : ι → E) (eattr : String → ι → ℚ) (srcs : List (ν × Option ℚ))
    (e : E) :
    calc_accessibility_load_model f nodes poiw epathOf origName eattr srcs true e =
      calc_accessibility_load_model f nodes poiw epathOf origName eattr srcs false e /
        nansum (srcs.map Prod.snd) := by
  rw [calc_accessibility_load_model, calc_accessibility_load_model, load_fold, load_fold]
  have main : ∀ (ss : List (ν × Option ℚ)) (tot : ℚ) (Lt Lf : E → ℚ),
      (∀ x, Lt x = Lf x / tot) →
      ∀ x, ss.foldl (load_step f nodes poiw epathOf origName eattr true tot) Lt x =
        ss.foldl (load_step f nodes poiw epathOf origName eattr false tot) Lf x / tot := by
    intro ss
    induction ss with
    | nil => intro tot Lt Lf h x; exact h x
    | cons sp rest ih =>
      intro tot Lt Lf h x
      rw [List.foldl_cons, List.foldl_cons]
      exact ih tot _ _
        (load_step_div f nodes poiw epathOf origName eattr tot Lt Lf h sp) x
  exact main srcs (nansum (srcs.map Prod.snd)) (fun _ => 0) (fun _ => 0)
    (fun x => (zero_div _).symm) e

/-- A shapely polygon as `random_points_in_polygon` consumes it:
`polygon.bounds = (x_min, y_min, x_max, y_max)` (line 94), `polygon.area`
(line 96), and the `within` point-in-polygon test (line 107). -/
structure Polygon where
  xmin : ℚ
  ymin : ℚ
  xmax : ℚ
  ymax : ℚ
  area : ℚ
  within : ℚ → ℚ → Bool

/-- Python 3 `round` (round half to even) as used in
`n = int(round(n_pts*(1+2/sft)))` (line 98). -/
def pyRound (q : ℚ) : ℤ :=
  if q - ⌊q⌋ < 1 / 2 then ⌊q⌋
  else if 1 / 2 < q - ⌊q⌋ then ⌊q⌋ + 1
  else if ⌊q⌋ % 2 = 0 then ⌊q⌋ else ⌊q⌋ + 1

/-- One batch of `n` x-draws of line 101: `np.random.uniform(x_min, x_max, n)`
from the seeded stream `u`, starting at stream position `pos`. -/
def batch_xs (u : ℕ → ℚ) (poly : Polygon) (n pos : ℕ) : List ℚ :=
  (List.range n).map (fun i => poly.xmin + (poly.xmax - poly.xmin) * u (pos + i))

/-- One batch of `n` y-draws of line 102, drawn after the x-batch. -/
def batch_ys (u : ℕ → ℚ) (poly : Polygon) (n pos : ℕ) : List ℚ :=
  (List.range n).map (fun i => poly.ymin + (poly.ymax - poly.ymin) * u (pos + n + i))

/-- Lines 105-107: pair the draws up and keep only the points within the
polygon. -/
def batch_pts (u : ℕ → ℚ) (poly : Polygon) (n pos : ℕ) : List (ℚ × ℚ) :=
  ((batch_xs u poly n pos).zip (batch_ys u poly n pos)).filter
    (fun p => poly.within p.1 p.2)

/-- The `while True:` loop of lines 100-113, with explicit fuel: draw a batch
of the inflated size `n`, keep the first `n_pts` surviving points, and retry
(advancing the stream by the `2*n` draws consumed) if fewer survived. -/
def rpip_loop (u : ℕ → ℚ) (poly : Polygon) (n_pts n : ℕ) :
    ℕ → ℕ → Option (List ℚ × List ℚ)
  | 0, _ => none
  | fuel + 1, pos =>
    if (((batch_pts u poly n pos).map Prod.fst).take n_pts).length < n_pts then
      rpip_loop u poly n_pts n fuel (pos + 2 * n)
    else
      some (((batch_pts u poly n pos).map Prod.fst).take n_pts,
        ((batch_pts u poly n pos).map Prod.snd).take n_pts)

/-- `random_points_in_polygon(polygon, n_pts, seed)` (lines 75-114), the
signature order of line 75: the polygon comes FIRST, the point count second.
`u` is the stream the seeded global generator produces. -/
def random_points_in_polygon (u : ℕ → ℚ) (poly : Polygon) (n_pts : ℕ)
    (fuel : ℕ) : Option (List ℚ × List ℚ) :=
  let sft := poly.area / ((poly.xmax - poly.xmin) * (poly.ymax - poly.ymin))
  let n := (pyRound ((n_pts : ℚ) * (1 + 2 / sft))).toNat
  rpip_loop u poly n_pts n fuel 0

theorem rpip_loop_spec (u : ℕ → ℚ) (poly : Polygon) (n_pts n : ℕ) :
    ∀ (fuel pos : ℕ) (X Y : List ℚ),
      rpip_loop u poly n_pts n fuel pos = some (X, Y) →
      X.length = n_pts ∧ Y.length = n_pts ∧
        ∀ p ∈ X.zip Y, poly.within p.1 p.2 = true := by
  intro fuel
  induction fuel with
  | zero => intro pos X Y h; exact absurd h (by simp [rpip_loop])
  | succ fl ih =>
    intro pos X Y h
    rw [rpip_loop] at h
    by_cases hc : (((batch_pts u poly n pos).map Prod.fst).take n_pts).length < n_pts
    · rw [if_pos hc] at h
      exact ih _ X Y h
    · rw [if_neg hc] at h
      have h' := Option.some.inj h
      have hX : X = ((batch_pts u poly n pos).map Prod.fst).take n_pts :=
        (congrArg Prod.fst h').symm
      have hY : Y = ((batch_pts u poly n pos).map Prod.snd).take n_pts :=
        (congrArg Prod.snd h').symm
      subst hX
      subst hY
      push_neg at hc
      rw [List.length_take, List.length_map] at hc
      refine ⟨?_, ?_, ?_⟩
      · rw [List.length_take, List.length_map]
        omega
      · rw [List.length_take, List.length_map]
        omega
      · intro p hp
        have hzip : (((batch_pts u poly n pos).map Prod.fst).take n_pts).zip
            (((batch_pts u poly n pos).map Prod.snd).take n_pts) =
            ((batch_pts u poly n pos).take n_pts).map
              (fun q : ℚ × ℚ => (q.1, q.2)) := by
          rw [← List.map_take, ← List.map_take, List.zip_map']
        rw [hzip] at hp
        rw [List.mem_map] at hp
        obtain ⟨q, hq, hqp⟩ := hp
        have hq' : q ∈ batch_pts u poly n pos := List.mem_of_mem_take hq
        have := (List.mem_filter.mp hq').2
        rw [← hqp]
        exact this

/-- C3: whenever the sampler returns, it returns exactly `n_pts` x- and
y-coordinates and every returned point lies within the polygon; and the
output is a function of the seeded draw stream, the polygon and the count
alone, so two calls with the same seed on the same polygon return the same
points. -/
theorem C3_sampler_count_within_deterministic :
    (∀ (u : ℕ → ℚ) (poly : Polygon) (n_pts fuel : ℕ) (X Y : List ℚ),
      random_points_in_polygon u poly n_pts fuel = some (X, Y) →
        X.length = n_pts ∧ Y.length = n_pts ∧
          ∀ p ∈ X.zip Y, poly.within p.1 p.2 = true)
    ∧ (∀ (u1 u2 : ℕ → ℚ) (poly : Polygon) (n_pts fuel : ℕ), u1 = u2 →
        random_points_in_polygon u1 poly n_pts fuel =
          random_points_in_polygon u2 poly n_pts fuel) := by
  constructor
  · intro u poly n_pts fuel X Y h
    exact rpip_loop_spec u poly n_pts _ fuel 0 X Y h
  · intro u1 u2 poly n_pts fuel h
    rw [h]

/-- The unit square with a decidable point-in-polygon test, used as concrete
input. -/
def unitSquare : Polygon :=
  ⟨0, 0, 1, 1, 1, fun x y => decide (0 ≤ x ∧ x ≤ 1 ∧ 0 ≤ y ∧ y ≤ 1)⟩

/-- Witness for C3 at a concrete input: the unit square, a constant draw
stream at 1/2, `n_pts = 2` (inflated batch size 6), one loop pass. -/
theorem C3_sampler_witness :
    (random_points_in_polygon (fun _ => 1 / 2) unitSquare 2 1 =
        some ([1 / 2, 1 / 2], [1 / 2, 1 / 2]) ∧
      ([1 / 2, 1 / 2] : List ℚ).length = 2 ∧
        ([1 / 2, 1 / 2] : List ℚ).length = 2 ∧
          ∀ p ∈ ([1 / 2, 1 / 2] : List ℚ).zip ([1 / 2, 1 / 2] : List ℚ),
            unitSquare.within p.1 p.2 = true) ∧
      ((fun _ : ℕ => (1 : ℚ) / 2) = (fun _ : ℕ => (1 : ℚ) / 2) ∧
        random_points_in_polygon (fun _ => 1 / 2) unitSquare 2 1 =
          random_points_in_polygon (fun _ => 1 / 2) unitSquare 2 1) := by
  have heval : random_points_in_polygon (fun _ => 1 / 2) unitSquare 2 1 =
      some ([1 / 2, 1 / 2], [1 / 2, 1 / 2]) := by
    norm_num [random_points_in_polygon, rpip_loop, pyRound, unitSquare,
      batch_pts, batch_xs, batch_ys, List.range_succ, List.replicate]
  exact ⟨⟨heval,
      C3_sampler_count_within_deterministic.1 (fun _ => 1 / 2) unitSquare 2 1
        [1 / 2, 1 / 2] [1 / 2, 1 / 2] heval⟩,
    rfl,
    C3_sampler_count_within_deterministic.2 (fun _ => 1 / 2) (fun _ => 1 / 2)
      unitSquare 2 1 rfl⟩

/-- A Python value bound to a parameter of `random_points_in_polygon`: the
call sites pass an `int` where the signature expects the polygon. -/
inductive PyVal (P : Type) where
  | pyInt : ℤ → PyVal P
  | pyPoly : P → PyVal P

/-- Dynamic-typing semantics of a call `random_points_in_polygon(a, b, seed)`:
the body dereferences `polygon.bounds` first (line 94), so binding an integer
to the `polygon` parameter raises `AttributeError`; binding a polygon to
`n_pts` fails in the arithmetic `n_pts*(1+2/sft)` of line 98. -/
def random_points_in_polygon_call (u : ℕ → ℚ) (polygon n_pts : PyVal Polygon)
    (fuel : ℕ) : Except String (List ℚ × List ℚ) :=
  match polygon with
  | .pyInt _ => .error "AttributeError: int object has no attribute bounds"
  | .pyPoly p =>
    match n_pts with
    | .pyInt m =>
      match random_points_in_polygon u p m.toNat fuel with
      | some r => .ok r
      | none => .error "loop did not terminate within fuel"
    | .pyPoly _ => .error "TypeError: unsupported operand type for polygon"

/-- The sampling loop of `calc_tract_accessibility` (lines 180-187) and of
`calc_accessibility_load` (lines 342-349): for each tract polygon it calls
`random_points_in_polygon(k, poly, seed=random_seed)` — `k` in the `polygon`
position and the polygon in the `n_pts` position, the reverse of the
signature of line 75 — and extends the coordinate accumulators. -/
def calc_tract_sampling (u : ℕ → ℚ) (k : ℤ) (polys : List Polygon)
    (fuel : ℕ) : Except String (List ℚ × List ℚ) :=
  polys.foldlM
    (fun acc poly =>
      (random_points_in_polygon_call u (PyVal.pyInt k) (PyVal.pyPoly poly)
          fuel).map
        (fun r => (acc.1 ++ r.1, acc.2 ++ r.2)))
    ([], [])

theorem calc_tract_sampling_error (u : ℕ → ℚ) (k : ℤ) (p0 : Polygon)
    (rest : List Polygon) (fuel : ℕ) :
    calc_tract_sampling u k (p0 :: rest) fuel =
      Except.error "AttributeError: int object has no attribute bounds" := rfl

/-- C1 (refuted by the code): both callers pass the arguments of
`random_points_in_polygon` in the order `(k, poly)` (lines 184 and 346) while
the signature of line 75 is `(polygon, n_pts, seed)`; the body then evaluates
`polygon.bounds` on the integer `k` and raises `AttributeError`, so for any
nonempty tract list no area ever contributes any sample — here evaluated at
the concrete failing input `k = 5` with a single unit-square tract. -/
theorem C1_sampling_crashes_on_swapped_arguments :
    calc_tract_sampling (fun _ => 1 / 2) 5 [unitSquare] 100 =
      Except.error "AttributeError: int object has no attribute bounds" :=
  calc_tract_sampling_error (fun _ => 1 / 2) 5 unitSquare [] 100

/-- A networkx graph as the two public operations see it from the caller's
side: node and edge lists plus named node and edge attribute stores. -/
structure NXGraph (ν E : Type) where
  nodes : List ν
  edges : List E
  nodeAttr : String → ν → ℚ
  edgeAttr : String → E → ℚ

/-- Lines 158-164: `attrs = {}.fromkeys(G.nodes, 0)`, then
`attrs[node] += val` over the snapped POI nodes zipped with the POI
weights. -/
def aggregate_weights {ν : Type} [DecidableEq ν] (snapped : List ν)
    (pvals : List ℚ) : ν → ℚ :=
  (snapped.zip pvals).foldl
    (fun a p => Function.update a p.1 (a p.1 + p.2)) (fun _ => 0)

/-- The caller-visible effect of `calc_tract_accessibility` on its graph
argument: the function never copies `G`, and line 165
(`nx.set_node_attributes(G, attrs, pois_weight_column)`) writes the
aggregated destination weights as a node attribute onto the caller's graph;
no edge attribute and no node/edge list is touched. -/
def calc_tract_caller_effect {ν E : Type} [DecidableEq ν] (G : NXGraph ν E)
    (col : String) (snapped : List ν) (pvals : List ℚ) : NXGraph ν E :=
  { G with
    nodeAttr := fun c =>
      if c = col then aggregate_weights snapped pvals else G.nodeAttr c }

/-- The caller-visible effect of `calc_accessibility_load` on its graph
argument: line 298 (`G = G.copy()`) takes an ownership copy before any write,
so the `orig_name` tags (line 300), the `load` zero-initialisation
(lines 319-320), the node-attribute write (line 330) and every
`_update_edges` write land on the copy; the caller's graph object is
unchanged. -/
def calc_load_caller_effect {ν E : Type} (G : NXGraph ν E) : NXGraph ν E := G

/-- C5 counterexample: `calc_tract_accessibility` DOES write an attribute on
the caller's graph. On a one-node graph whose `temp` node attribute is 5,
snapping one POI of weight 7 leaves the caller's object with node attribute
7 — the claim that the Accessibility Aggregator writes no attribute on the
routing graph is false. -/
theorem C5_counterexample_tract_writes_node_attr :
    (calc_tract_caller_effect
        (⟨[0], [], fun _ _ => 5, fun _ _ => 0⟩ : NXGraph ℕ ℕ) "temp" [0]
        [7]).nodeAttr "temp" 0 ≠
      (⟨[0], [], fun _ _ => 5, fun _ _ => 0⟩ : NXGraph ℕ ℕ).nodeAttr "temp" 0 := by
  simp [calc_tract_caller_effect, aggregate_weights]

/-- C5 amended: `calc_tract_accessibility` mutates the caller's graph, but
only its node attributes, and only the destination-weight column: node list,
edge list, every edge attribute, and every other node-attribute column are
unchanged; `calc_accessibility_load` copies the graph at entry, so the
caller's graph is entirely unchanged by it. -/
theorem C5_amended_mutation_footprint {ν E : Type} [DecidableEq ν]
    (G : NXGraph ν E) (col : String) (snapped : List ν) (pvals : List ℚ) :
    ((calc_tract_caller_effect G col snapped pvals).nodes = G.nodes ∧
      (calc_tract_caller_effect G col snapped pvals).edges = G.edges ∧
      (calc_tract_caller_effect G col snapped pvals).edgeAttr = G.edgeAttr ∧
      ∀ c, c ≠ col →
        (calc_tract_caller_effect G col snapped pvals).nodeAttr c =
          G.nodeAttr c) ∧
      calc_load_caller_effect G = G := by
  refine ⟨⟨rfl, rfl, rfl, ?_⟩, rfl⟩
  intro c hc
  simp [calc_tract_caller_effect, hc]

/-- Witness for C5 amended at a concrete input. -/
theorem C5_amended_mutation_footprint_witness :
    ("load" ≠ "temp") ∧
      (calc_tract_caller_effect
          (⟨[0], [], fun _ _ => 5, fun _ _ => 0⟩ : NXGraph ℕ ℕ) "temp" [0]
          [7]).nodeAttr "load" =
        (⟨[0], [], fun _ _ => 5, fun _ _ => 0⟩ : NXGraph ℕ ℕ).nodeAttr "load" :=
  ⟨by decide,
    (C5_amended_mutation_footprint
        (⟨[0], [], fun _ _ => 5, fun _ _ => 0⟩ : NXGraph ℕ ℕ) "temp" [0]
        [7]).1.2.2.2 "load" (by decide)⟩
